import Mathlib

/-!
Verification of the structural-summary extractor of generate_context.py.

The Python source is shallowly embedded below: each regular-expression scan
of the source is translated into an explicit, executable scanner over
List Char, with the exact backtracking semantics of the pattern worked out
case by case (non-greedy groups become shortest-first searches, greedy
whitespace runs become maximal runs, line anchors become explicit
line-start tests).  Positions are byte—here character—indices into the
full text, mirroring Python match object positions.
-/

/-- Characters matched by Python's regex class backslash-s and stripped by
str.strip() (ASCII range). -/
def isPySpace (c : Char) : Bool :=
  c = ' ' || c = '\t' || c = '\n' || c = '\r' || c = '\x0b' || c = '\x0c'

/-- Word characters of the regex class backslash-w (ASCII range). -/
def isWordChar (c : Char) : Bool :=
  c.isAlphanum || c = '_'

def lit (s : String) : List Char := s.toList

/-- Character of the text at an absolute index. -/
def charAt (c : List Char) (i : Nat) : Option Char := c.get? i

/-- Does the literal occur at index i of the text? -/
def litAt (c : List Char) (p : List Char) (i : Nat) : Bool :=
  p.isPrefixOf (c.drop i)

/-- Length of the maximal run of characters satisfying f starting at i. -/
def runLen (c : List Char) (f : Char → Bool) (i : Nat) : Nat :=
  ((c.drop i).takeWhile f).length

/-- Index after a maximal whitespace run, i.e. the greedy backslash-s-star. -/
def skipWs (c : List Char) (i : Nat) : Nat := i + runLen c isPySpace i

def wsRunLen (c : List Char) (i : Nat) : Nat := runLen c isPySpace i

def wordRunLen (c : List Char) (i : Nat) : Nat := runLen c isWordChar i

/-- The sliceAt c[i : i+n] as a list. -/
def sliceAt (c : List Char) (i n : Nat) : List Char := (c.drop i).take n

/-- str.strip(): remove leading and trailing whitespace. -/
def pyStrip (l : List Char) : List Char :=
  ((l.dropWhile isPySpace).reverse.dropWhile isPySpace).reverse

/-- "sep".join(parts) for a list of character lists. -/
def joinWith (sep : List Char) : List (List Char) → List Char
  | [] => []
  | [x] => x
  | x :: y :: rest => x ++ sep ++ joinWith sep (y :: rest)

/-- Substring test, the Python operator in. -/
def isSubstr (p : List Char) : List Char → Bool
  | [] => p.isPrefixOf []
  | c :: rest => p.isPrefixOf (c :: rest) || isSubstr p rest

/-- str.split on a single newline; MULTILINE line-start positions of the
regex module correspond exactly to the starts of these segments. -/
def splitNl : List Char → List (List Char)
  | [] => [[]]
  | ch :: r =>
    match splitNl r with
    | [] => [[ch]]
    | s :: ss => if ch = '\n' then [] :: s :: ss else (ch :: s) :: ss

/-- First index at or after the given one holding the character, as
content.find(ch, start) of Python (None for -1). -/
def findFromAux (ch : Char) : List Char → Nat → Option Nat
  | [], _ => none
  | x :: r, i => if x = ch then some i else findFromAux ch r (i + 1)

def findFrom (c : List Char) (ch : Char) (start : Nat) : Option Nat :=
  findFromAux ch (c.drop start) start

/-- Last index of a character in the list, if any. -/
def lastIdxOf (c : List Char) (ch : Char) : Option Nat :=
  match findFromAux ch c.reverse 0 with
  | some j => some (c.length - 1 - j)
  | none => none

/-- str.endswith: the path-extension dispatch of the source uses this. -/
def pyEndsWithB (s : String) (suffix : String) : Bool :=
  suffix.toList.reverse.isPrefixOf s.toList.reverse

/-- A MULTILINE caret position: start of text or just after a newline. -/
def isLineStartB (c : List Char) (p : Nat) : Bool :=
  p = 0 || charAt c (p - 1) = some '\n'

/-! ## Import-line patterns (findall with MULTILINE anchors) -/

/-- One line matches the Python-file import pattern
caret-import-space-dot-star or caret-from-dot-star-space-import-space-dot-star;
either alternative covers the whole rest of the line. -/
def pyImportLine (l : List Char) : Bool :=
  (lit "import ").isPrefixOf l ||
    ((lit "from ").isPrefixOf l && isSubstr (lit " import ") (l.drop 5))

def pyImports (c : List Char) : List (List Char) :=
  (splitNl c).filter pyImportLine

/-- One line against the C-sharp pattern caret-using-space, lazily up to the
first semicolon on the line. -/
def csUsingLine (l : List Char) : Option (List Char) :=
  if (lit "using ").isPrefixOf l then
    match findFrom l ';' 0 with
    | some j => some (l.take (j + 1))
    | none => none
  else none

def csUsings (c : List Char) : List (List Char) :=
  (splitNl c).filterMap csUsingLine

/-- One line against the JS pattern: caret-import-space rest of line, or
caret-require-lparen greedily up to the last right parenthesis. -/
def jsImportLine (l : List Char) : Option (List Char) :=
  if (lit "import ").isPrefixOf l then some l
  else if (lit "require(").isPrefixOf l then
    match lastIdxOf l ')' with
    | some j => some (l.take (j + 1))
    | none => none
  else none

def jsImports (c : List Char) : List (List Char) :=
  (splitNl c).filterMap jsImportLine

/-! ## Python classes and functions

Pattern (MULTILINE, DOTALL):
caret class ws+ name optional-parens ws* colon ws* lazy-body
up to a lookahead position that is a line start followed by the literal
class or def, or the end of the text when it sits at a line start.
The greedy whitespace after the colon always ends at a non-whitespace
character or at the end, so no lookahead position can be skipped by it;
if no such position exists (text whose last line is inside the body and
lacks a trailing newline) the match fails entirely. -/

def pyBoundaryB (c : List Char) (t : Nat) : Bool :=
  (isLineStartB c t && (litAt c (lit "class") t || litAt c (lit "def") t)) ||
    (t = c.length && isLineStartB c t)

def pyFindBoundary (c : List Char) : Nat → Nat → Option Nat
  | 0, _ => none
  | fuel + 1, t =>
    if pyBoundaryB c t then some t
    else if t ≥ c.length then none
    else pyFindBoundary c fuel (t + 1)

structure PyClass where
  start : Nat
  name : List Char
  body : List Char
deriving Repr, DecidableEq

/-- Attempt the class header and body at position p (the caret anchor is
checked by the scanner).  Returns payload and resume position. -/
def pyTryClassAt (c : List Char) (p : Nat) : Option ((List Char × List Char) × Nat) :=
  if litAt c (lit "class") p then
    let w := wsRunLen c (p + 5)
    if w = 0 then none else
    let n := wordRunLen c (p + 5 + w)
    if n = 0 then none else
    let e := p + 5 + w + n
    let name := sliceAt c (p + 5 + w) n
    let e' :=
      if charAt c e = some '(' then
        let inner := runLen c (fun x => !(x = ')')) (e + 1)
        if inner > 0 && charAt c (e + 1 + inner) = some ')' then
          some (e + 1 + inner + 1)
        else none
      else some e
    match e' with
    | none => none
    | some e2 =>
      let sw := wsRunLen c e2
      if charAt c (e2 + sw) = some ':' then
        let bodyStart := skipWs c (e2 + sw + 1)
        match pyFindBoundary c (c.length + 1) bodyStart with
        | none => none
        | some t => some ((name, sliceAt c bodyStart (t - bodyStart)), t)
      else none
  else none

def pyClassesAux (c : List Char) : Nat → Nat → List PyClass
  | 0, _ => []
  | fuel + 1, p =>
    if p ≥ c.length then []
    else if isLineStartB c p then
      match pyTryClassAt c p with
      | some ((name, body), t) => ⟨p, name, body⟩ :: pyClassesAux c fuel t
      | none => pyClassesAux c fuel (p + 1)
    else pyClassesAux c fuel (p + 1)

def pyClassMatches (c : List Char) : List PyClass :=
  pyClassesAux c (c.length + 1) 0

/-- re.match of ws* three-quotes lazy-group three-quotes against a body
(DOTALL): the group runs to the first closing triple quote. -/
def tripleQuoteSplit : List Char → Option (List Char)
  | [] => none
  | ch :: r =>
    if (lit "\"\"\"").isPrefixOf (ch :: r) then some []
    else
      match tripleQuoteSplit r with
      | some g => some (ch :: g)
      | none => none

def pyDocstring (body : List Char) : Option (List Char) :=
  let b := body.dropWhile isPySpace
  if (lit "\"\"\"").isPrefixOf b then
    match tripleQuoteSplit (b.drop 3) with
    | some g => some (pyStrip g)
    | none => none
  else none

/-- Unanchored method pattern inside a class body: the literal def, then
ws+ name ws* lparen non-rparen-star rparen colon. -/
def pyTryMethodAt (c : List Char) (p : Nat) : Option (List Char × Nat) :=
  if litAt c (lit "def") p then
    let w := wsRunLen c (p + 3)
    if w = 0 then none else
    let n := wordRunLen c (p + 3 + w)
    if n = 0 then none else
    let e := p + 3 + w + n
    let sw := wsRunLen c e
    if charAt c (e + sw) = some '(' then
      let inner := runLen c (fun x => !(x = ')')) (e + sw + 1)
      if charAt c (e + sw + 1 + inner) = some ')' &&
          charAt c (e + sw + 1 + inner + 1) = some ':' then
        some (sliceAt c (p + 3 + w) n, e + sw + 1 + inner + 2)
      else none
    else none
  else none

def pyMethodsAux (c : List Char) : Nat → Nat → List (List Char)
  | 0, _ => []
  | fuel + 1, p =>
    if p ≥ c.length then []
    else
      match pyTryMethodAt c p with
      | some (name, t) => name :: pyMethodsAux c fuel t
      | none => pyMethodsAux c fuel (p + 1)

def pyMethods (body : List Char) : List (List Char) :=
  pyMethodsAux body (body.length + 1) 0

structure PyFunc where
  start : Nat
  name : List Char
  body : List Char
deriving Repr, DecidableEq

/-- Anchored standalone-function pattern, with the same body-boundary
lookahead as the class pattern. -/
def pyTryFuncAt (c : List Char) (p : Nat) : Option ((List Char × List Char) × Nat) :=
  if litAt c (lit "def") p then
    let w := wsRunLen c (p + 3)
    if w = 0 then none else
    let n := wordRunLen c (p + 3 + w)
    if n = 0 then none else
    let e := p + 3 + w + n
    let sw := wsRunLen c e
    if charAt c (e + sw) = some '(' then
      let inner := runLen c (fun x => !(x = ')')) (e + sw + 1)
      if charAt c (e + sw + 1 + inner) = some ')' &&
          charAt c (e + sw + 1 + inner + 1) = some ':' then
        let bodyStart := skipWs c (e + sw + 1 + inner + 2)
        match pyFindBoundary c (c.length + 1) bodyStart with
        | none => none
        | some t => some ((sliceAt c (p + 3 + w) n, sliceAt c bodyStart (t - bodyStart)), t)
      else none
    else none
  else none

def pyFuncsAux (c : List Char) : Nat → Nat → List PyFunc
  | 0, _ => []
  | fuel + 1, p =>
    if p ≥ c.length then []
    else if isLineStartB c p then
      match pyTryFuncAt c p with
      | some ((name, body), t) => ⟨p, name, body⟩ :: pyFuncsAux c fuel t
      | none => pyFuncsAux c fuel (p + 1)
    else pyFuncsAux c fuel (p + 1)

def pyFuncMatches (c : List Char) : List PyFunc :=
  pyFuncsAux c (c.length + 1) 0

/-! ## JavaScript / TypeScript classes, methods and functions -/

structure JsClass where
  start : Nat
  name : List Char
  body : List Char
deriving Repr, DecidableEq

/-- Anchored class pattern: caret class ws+ name optional extends clause
ws* lbrace lazy body up to the first rbrace (DOTALL). -/
def jsTryClassAt (c : List Char) (p : Nat) : Option ((List Char × List Char) × Nat) :=
  if litAt c (lit "class") p then
    let w := wsRunLen c (p + 5)
    if w = 0 then none else
    let n := wordRunLen c (p + 5 + w)
    if n = 0 then none else
    let e := p + 5 + w + n
    let name := sliceAt c (p + 5 + w) n
    let w1 := wsRunLen c e
    let e' :=
      if w1 > 0 && litAt c (lit "extends") (e + w1) then
        let w2 := wsRunLen c (e + w1 + 7)
        let n2 := wordRunLen c (e + w1 + 7 + w2)
        if w2 > 0 && n2 > 0 then e + w1 + 7 + w2 + n2 else e
      else e
    let sw := wsRunLen c e'
    if charAt c (e' + sw) = some '{' then
      let p6 := e' + sw + 1
      match findFrom c '}' p6 with
      | some t => some ((name, sliceAt c p6 (t - p6)), t + 1)
      | none => none
    else none
  else none

def jsClassesAux (c : List Char) : Nat → Nat → List JsClass
  | 0, _ => []
  | fuel + 1, p =>
    if p ≥ c.length then []
    else if isLineStartB c p then
      match jsTryClassAt c p with
      | some ((name, body), t) => ⟨p, name, body⟩ :: jsClassesAux c fuel t
      | none => jsClassesAux c fuel (p + 1)
    else jsClassesAux c fuel (p + 1)

def jsClassMatches (c : List Char) : List JsClass :=
  jsClassesAux c (c.length + 1) 0

/-- Core of the JS method pattern from a given point: name ws* lparen
non-rparen-star rparen ws* lbrace. -/
def jsMethodCore (c : List Char) (x : Nat) : Option (List Char × Nat) :=
  let n := wordRunLen c x
  if n = 0 then none else
  let e := x + n
  let sw := wsRunLen c e
  if charAt c (e + sw) = some '(' then
    let inner := runLen c (fun ch => !(ch = ')')) (e + sw + 1)
    if charAt c (e + sw + 1 + inner) = some ')' then
      let a := e + sw + 1 + inner + 1
      let sw2 := wsRunLen c a
      if charAt c (a + sw2) = some '{' then
        some (sliceAt c x n, a + sw2 + 1)
      else none
    else none
  else none

/-- Unanchored method pattern with the optional greedy async prefix tried
first, falling back to a plain match at the same position. -/
def jsTryMethodAt (c : List Char) (p : Nat) : Option (List Char × Nat) :=
  let withAsync :=
    if litAt c (lit "async") p then
      let w := wsRunLen c (p + 5)
      if w > 0 then jsMethodCore c (p + 5 + w) else none
    else none
  match withAsync with
  | some r => some r
  | none => jsMethodCore c p

def jsMethodsAux (c : List Char) : Nat → Nat → List (List Char)
  | 0, _ => []
  | fuel + 1, p =>
    if p ≥ c.length then []
    else
      match jsTryMethodAt c p with
      | some (name, t) => name :: jsMethodsAux c fuel t
      | none => jsMethodsAux c fuel (p + 1)

def jsMethods (body : List Char) : List (List Char) :=
  jsMethodsAux body (body.length + 1) 0

/-- Core of the JS function pattern: function ws+ name ws* lparen
non-rparen-star rparen. -/
def jsFuncCore (c : List Char) (x : Nat) : Option (List Char × Nat) :=
  if litAt c (lit "function") x then
    let w := wsRunLen c (x + 8)
    if w = 0 then none else
    let n := wordRunLen c (x + 8 + w)
    if n = 0 then none else
    let e := x + 8 + w + n
    let sw := wsRunLen c e
    if charAt c (e + sw) = some '(' then
      let inner := runLen c (fun ch => !(ch = ')')) (e + sw + 1)
      if charAt c (e + sw + 1 + inner) = some ')' then
        some (sliceAt c (x + 8 + w) n, e + sw + 1 + inner + 1)
      else none
    else none
  else none

/-- Function pattern with the two optional greedy prefixes export and async,
tried in the regex backtracking order. -/
def jsTryFuncAt (c : List Char) (p : Nat) : Option (List Char × Nat) :=
  let withAsyncAt (x : Nat) : Option (List Char × Nat) :=
    if litAt c (lit "async") x then
      let w := wsRunLen c (x + 5)
      if w > 0 then jsFuncCore c (x + 5 + w) else none
    else none
  let fromBase (x : Nat) : Option (List Char × Nat) :=
    match withAsyncAt x with
    | some r => some r
    | none => jsFuncCore c x
  let withExport :=
    if litAt c (lit "export") p then
      let w := wsRunLen c (p + 6)
      if w > 0 then fromBase (p + 6 + w) else none
    else none
  match withExport with
  | some r => some r
  | none => fromBase p

def jsFuncsAux (c : List Char) : Nat → Nat → List (List Char)
  | 0, _ => []
  | fuel + 1, p =>
    if p ≥ c.length then []
    else
      match jsTryFuncAt c p with
      | some (name, t) => name :: jsFuncsAux c fuel t
      | none => jsFuncsAux c fuel (p + 1)

def jsFuncNames (c : List Char) : List (List Char) :=
  jsFuncsAux c (c.length + 1) 0

/-! ## C-sharp namespace, XML documentation, types and members -/

/-- re.search of the pattern namespace-space word-or-dot-run semicolon:
first position whose maximal run of word or dot characters is nonempty and
is followed immediately by a semicolon. -/
def csNamespaceAux (c : List Char) : Nat → Nat → Option (List Char)
  | 0, _ => none
  | fuel + 1, i =>
    if i ≥ c.length then none
    else if litAt c (lit "namespace ") i then
      let n := runLen c (fun x => isWordChar x || x = '.') (i + 10)
      if n > 0 && charAt c (i + 10 + n) = some ';' then
        some (sliceAt c (i + 10) n)
      else csNamespaceAux c fuel (i + 1)
    else csNamespaceAux c fuel (i + 1)

def csNamespace (c : List Char) : Option (List Char) :=
  csNamespaceAux c (c.length + 1) 0

/-- The four visibility keywords of the C-sharp patterns; none is a prefix
of another, so at most one can match at a position. -/
def findVisKw (c : List Char) (i : Nat) : Option Nat :=
  if litAt c (lit "public") i then some 6
  else if litAt c (lit "private") i then some 7
  else if litAt c (lit "protected") i then some 9
  else if litAt c (lit "internal") i then some 8
  else none

def kindKwAt (c : List Char) (i : Nat) : Bool :=
  litAt c (lit "class") i || litAt c (lit "interface") i || litAt c (lit "enum") i

/-- Lookahead of the XML-doc pattern: ws* keyword ws+ word-char. -/
def csDocLookahead (c : List Char) (q : Nat) : Bool :=
  let a := skipWs c q
  let kw : Option Nat :=
    match findVisKw c a with
    | some k => some k
    | none =>
      if litAt c (lit "class") a then some 5
      else if litAt c (lit "interface") a then some 9
      else if litAt c (lit "enum") a then some 4
      else none
  match kw with
  | none => false
  | some k =>
    let w := wsRunLen c (a + k)
    w > 0 && wordRunLen c (a + k + w) > 0

/-- The lazy doc group: grow from position g until a triple slash that is
followed (after greedy whitespace) by the summary closing tag; the group may
not contain a left angle bracket.  Returns the end of the group and the
index just after the closing tag. -/
def csDocG (c : List Char) : Nat → Nat → Option (Nat × Nat)
  | 0, _ => none
  | fuel + 1, g =>
    if g ≥ c.length then none
    else if litAt c (lit "///") g then
      let a := skipWs c (g + 3)
      if litAt c (lit "</summary>") a then some (g, a + 10)
      else csDocG c fuel (g + 1)
    else if charAt c g = some '<' then none
    else csDocG c fuel (g + 1)

/-- The lazy dot-star before the lookahead: smallest end position at or
after i5 where the lookahead holds. -/
def csDocEnd (c : List Char) : Nat → Nat → Option Nat
  | 0, _ => none
  | fuel + 1, q =>
    if csDocLookahead c q then some q
    else if q ≥ c.length then none
    else csDocEnd c fuel (q + 1)

/-- The next-declaration search pattern: visibility ws+ and then a kind
keyword or a word-or-angle run, ws+, word run. -/
def csNextDeclAt (c : List Char) (r : Nat) : Bool :=
  match findVisKw c r with
  | none => false
  | some k =>
    let w := wsRunLen c (r + k)
    if w = 0 then false
    else
      let x := r + k + w
      kindKwAt c x ||
        (let m := runLen c (fun ch => isWordChar ch || ch = '<' || ch = '>') x
         m > 0 &&
           (let w2 := wsRunLen c (x + m)
            w2 > 0 && wordRunLen c (x + m + w2) > 0))

def csNextDeclAux (c : List Char) : Nat → Nat → Option Nat
  | 0, _ => none
  | fuel + 1, r =>
    if r ≥ c.length then none
    else if csNextDeclAt c r then some r
    else csNextDeclAux c fuel (r + 1)

def csNextDecl (c : List Char) (q : Nat) : Option Nat :=
  csNextDeclAux c (c.length + 1) q

/-- str.replace of the doc-comment continuation marker by nothing. -/
def removeDocMarks : Nat → List Char → List Char
  | 0, _ => []
  | _, [] => []
  | fuel + 1, ch :: r =>
    if (lit "/// ").isPrefixOf (ch :: r) then removeDocMarks fuel ((ch :: r).drop 4)
    else ch :: removeDocMarks fuel r

/-- One XML documentation match attempt at position p.  On success returns
the optional dictionary entry (position of the next declaration mapped to
the cleaned doc text; no entry when no declaration follows) and the match
end used to resume scanning. -/
def csTryDocAt (c : List Char) (p : Nat) : Option (Option (Nat × List Char) × Nat) :=
  if litAt c (lit "/// <summary>") p then
    let i1 := skipWs c (p + 13)
    if litAt c (lit "///") i1 then
      let i2 := skipWs c (i1 + 3)
      match csDocG c (c.length + 1) i2 with
      | none => none
      | some (gEnd, i5) =>
        match csDocEnd c (c.length + 1) i5 with
        | none => none
        | some q =>
          let g := sliceAt c i2 (gEnd - i2)
          let doc := removeDocMarks ((pyStrip g).length + 1) (pyStrip g)
          match csNextDecl c q with
          | some r => some (some (r, doc), q)
          | none => some (none, q)
    else none
  else none

def csDocsAux (c : List Char) : Nat → Nat → List (Nat × List Char)
  | 0, _ => []
  | fuel + 1, p =>
    if p ≥ c.length then []
    else
      match csTryDocAt c p with
      | some (some e, q) => e :: csDocsAux c fuel q
      | some (none, q) => csDocsAux c fuel q
      | none => csDocsAux c fuel (p + 1)

/-- The xml_docs dictionary, keyed by absolute declaration position. -/
def csDocMatches (c : List Char) : List (Nat × List Char) :=
  csDocsAux c (c.length + 1) 0

/-- Dictionary lookup with the assignment semantics of the source: a later
entry for the same key overwrites an earlier one. -/
def lookupLast (l : List (Nat × List Char)) (k : Nat) : Option (List Char) :=
  match l with
  | [] => none
  | (k', v) :: rest =>
    match lookupLast rest k with
    | some v' => some v'
    | none => if k' = k then some v else none

structure CsType where
  start : Nat
  kind : List Char
  name : List Char
  base : Option (List Char)
  body : List Char
deriving Repr, DecidableEq

/-- Lookahead after the closing brace of a type body: ws* followed by a
keyword, or whitespace running to a newline or to the end of the text
(the MULTILINE dollar inside the alternation). -/
def csTypeLookahead (c : List Char) (q : Nat) : Bool :=
  (match findVisKw c (skipWs c q) with
   | some _ => true
   | none => kindKwAt c (skipWs c q)) ||
    (let w := runLen c (fun x => isPySpace x && !(x = '\n')) q
     q + w ≥ c.length || charAt c (q + w) = some '\n')

/-- The lazy type body: smallest extent ending at a closing brace whose
following text satisfies the lookahead. -/
def csTypeBodyEnd (c : List Char) : Nat → Nat → Option Nat
  | 0, _ => none
  | fuel + 1, t =>
    if t ≥ c.length then none
    else if charAt c t = some '}' && csTypeLookahead c (t + 1) then some t
    else csTypeBodyEnd c fuel (t + 1)

/-- One attempt of the type pattern at position p: visibility ws+ kind ws+
name, an optional base-type clause, a left brace and the lazy body.  The
base-clause backtracking is resolved as follows: after the colon, let m be
the maximal run of word, comma and whitespace characters; the clause (and
with it the whole match at p) succeeds only if that run is nonempty and is
followed by the left brace; the captured group drops leading whitespace
except when the run is pure whitespace, in which case backtracking leaves
exactly its last character in the group. -/
def csTryTypeAt (c : List Char) (p : Nat) :
    Option ((List Char × List Char × Option (List Char) × List Char) × Nat) :=
  match findVisKw c p with
  | none => none
  | some k =>
    let w := wsRunLen c (p + k)
    if w = 0 then none else
    let x := p + k + w
    let kind : Option (List Char × Nat) :=
      if litAt c (lit "class") x then some (lit "class", 5)
      else if litAt c (lit "interface") x then some (lit "interface", 9)
      else if litAt c (lit "enum") x then some (lit "enum", 4)
      else none
    match kind with
    | none => none
    | some (kd, klen) =>
      let w2 := wsRunLen c (x + klen)
      if w2 = 0 then none else
      let n := wordRunLen c (x + klen + w2)
      if n = 0 then none else
      let nameStart := x + klen + w2
      let e := nameStart + n
      let q1 := skipWs c e
      let afterBase : Option (Option (List Char) × Nat) :=
        if charAt c q1 = some ':' then
          let a := q1 + 1
          let m := runLen c (fun ch => isWordChar ch || ch = ',' || isPySpace ch) a
          if m > 0 && charAt c (a + m) = some '{' then
            let b := skipWs c a
            let base := if b < a + m then sliceAt c b (a + m - b) else sliceAt c (a + m - 1) 1
            some (some base, a + m + 1)
          else none
        else if charAt c q1 = some '{' then some (none, q1 + 1)
        else none
      match afterBase with
      | none => none
      | some (base, p6) =>
        match csTypeBodyEnd c (c.length + 1) p6 with
        | none => none
        | some t => some ((kd, sliceAt c nameStart n, base, sliceAt c p6 (t - p6)), t + 1)

def csTypesAux (c : List Char) : Nat → Nat → List CsType
  | 0, _ => []
  | fuel + 1, p =>
    if p ≥ c.length then []
    else
      match csTryTypeAt c p with
      | some ((kd, name, base, body), t) => ⟨p, kd, name, base, body⟩ :: csTypesAux c fuel t
      | none => csTypesAux c fuel (p + 1)

def csTypeMatches (c : List Char) : List CsType :=
  csTypesAux c (c.length + 1) 0

/-- Tail of a member pattern after the optional modifier: the lazy type
group (no newline or left brace, at least one character), ws+, the member
name, and for methods a parenthesized parameter list, then ws* and a braced
body or a semicolon.  gEnd grows one character at a time, shortest first. -/
def csMemTail (c : List Char) (paren : Bool) (gStart : Nat) :
    Nat → Nat → Option ((List Char × List Char) × Nat)
  | 0, _ => none
  | fuel + 1, gEnd =>
    let attempt : Option ((List Char × List Char) × Nat) :=
      let w := wsRunLen c gEnd
      if w = 0 then none else
      let n := wordRunLen c (gEnd + w)
      if n = 0 then none else
      let name := sliceAt c (gEnd + w) n
      let e := gEnd + w + n
      let afterParen : Option Nat :=
        if paren then
          let sw := wsRunLen c e
          if charAt c (e + sw) = some '(' then
            let inner := runLen c (fun ch => !(ch = ')')) (e + sw + 1)
            if charAt c (e + sw + 1 + inner) = some ')' then some (e + sw + 1 + inner + 1)
            else none
          else none
        else some e
      match afterParen with
      | none => none
      | some a =>
        let tw := wsRunLen c a
        let t := a + tw
        if charAt c t = some '{' then
          let br := runLen c (fun ch => !(ch = '}')) (t + 1)
          if charAt c (t + 1 + br) = some '}' then
            some ((sliceAt c gStart (gEnd - gStart), name), t + 1 + br + 1)
          else none
        else if charAt c t = some ';' then
          some ((sliceAt c gStart (gEnd - gStart), name), t + 1)
        else none
    match attempt with
    | some r => some r
    | none =>
      match charAt c gEnd with
      | none => none
      | some ch =>
        if ch = '\n' || ch = '{' then none
        else csMemTail c paren gStart fuel (gEnd + 1)

/-- The lazy type group started at s: its first character must be neither a
newline nor a left brace, and the group then grows shortest first. -/
def csMemGScan (c : List Char) (paren : Bool) (s : Nat) :
    Option ((List Char × List Char) × Nat) :=
  match charAt c s with
  | none => none
  | some ch =>
    if ch = '\n' || ch = '{' then none
    else csMemTail c paren s (c.length + 1) (s + 1)

/-- The greedy backslash-s-plus before the lazy type group: the engine
tries the maximal whitespace run first and then backtracks it one
character at a time into the group, whose class admits every whitespace
character except newline.  base + w is the group start for run length w,
counted down from the maximal run to one. -/
def csMemW1 (c : List Char) (paren : Bool) (base : Nat) :
    Nat → Option ((List Char × List Char) × Nat)
  | 0 => none
  | w + 1 =>
    match csMemGScan c paren (base + (w + 1)) with
    | some r => some r
    | none => csMemW1 c paren base w

/-- One attempt of a member pattern at position p: visibility, greedy ws+
(backtracked into the type group), the optional greedy virtual modifier —
possible only when the full whitespace run is consumed, since the literal
cannot start on a whitespace character, and itself followed by a
backtracked ws+ — retried without the modifier when every such combination
fails, then the member tail.  Returns (type group, name) and the resume
position of the first match in backtracking order. -/
def csTryMemberAt (c : List Char) (paren : Bool) (p : Nat) :
    Option ((List Char × List Char) × Nat) :=
  match findVisKw c p with
  | none => none
  | some k =>
    let w := wsRunLen c (p + k)
    if w = 0 then none else
    let q0 := p + k + w
    let withVirtual : Option ((List Char × List Char) × Nat) :=
      if litAt c (lit "virtual") q0 then
        let vw := wsRunLen c (q0 + 7)
        if vw > 0 then csMemW1 c paren (q0 + 7) vw else none
      else none
    match withVirtual with
    | some r => some r
    | none => csMemW1 c paren (p + k) w

def csMembersAux (c : List Char) (paren : Bool) : Nat → Nat → List (List Char × List Char)
  | 0, _ => []
  | fuel + 1, p =>
    if p ≥ c.length then []
    else
      match csTryMemberAt c paren p with
      | some (r, t) => r :: csMembersAux c paren fuel t
      | none => csMembersAux c paren fuel (p + 1)

/-- Rendered property entries of a type body: name colon stripped type. -/
def csProps (body : List Char) : List (List Char) :=
  (csMembersAux body false (body.length + 1) 0).map
    (fun m => m.2 ++ lit ": " ++ pyStrip m.1)

/-- Rendered method entries of a type body; accessor-style names with the
get_ or set_ prefix are filtered out before rendering. -/
def csMeths (body : List Char) : List (List Char) :=
  (csMembersAux body true (body.length + 1) 0).filterMap
    (fun m =>
      if (lit "get_").isPrefixOf m.2 || (lit "set_").isPrefixOf m.2 then none
      else some (m.2 ++ lit "(): " ++ pyStrip m.1))

/-- findall of the enum-value pattern: every maximal word run, with an
optional equals clause whose value is a nonempty run free of commas,
whitespace and right braces. -/
def csEnumAux (c : List Char) : Nat → Nat → List (List Char)
  | 0, _ => []
  | fuel + 1, p =>
    if p ≥ c.length then []
    else
      let wl := wordRunLen c p
      if wl = 0 then csEnumAux c fuel (p + 1)
      else
        let w := sliceAt c p wl
        let q := skipWs c (p + wl)
        if charAt c q = some '=' then
          let q2 := skipWs c (q + 1)
          let v := runLen c (fun ch => !(ch = ',') && !(isPySpace ch) && !(ch = '}')) q2
          if v > 0 then (w ++ lit " = " ++ sliceAt c q2 v) :: csEnumAux c fuel (q2 + v)
          else w :: csEnumAux c fuel (p + wl)
        else w :: csEnumAux c fuel (p + wl)

def csEnumValues (body : List Char) : List (List Char) :=
  csEnumAux body (body.length + 1) 0

def titleKind (k : List Char) : List Char :=
  if k = lit "class" then lit "Class"
  else if k = lit "interface" then lit "Interface"
  else lit "Enum"

/-- The type_info list built for one matched type, in source order: header,
optional inheritance line, optional documentation line, then enum values or
properties and methods. -/
def csTypeInfo (docs : List (Nat × List Char)) (T : CsType) : List (List Char) :=
  [lit "\n" ++ titleKind T.kind ++ lit ": " ++ T.name] ++
    (match T.base with
     | some b => [lit "Inherits/Implements: " ++ pyStrip b]
     | none => []) ++
    (match lookupLast docs T.start with
     | some d => [lit "Documentation: " ++ d]
     | none => []) ++
    (if T.kind = lit "enum" then
      (let vs := csEnumValues T.body
       if vs.isEmpty then [] else [lit "Values:\n  " ++ joinWith (lit "\n  ") vs])
    else
      (let ps := csProps T.body
       if ps.isEmpty then [] else [lit "Properties:\n  " ++ joinWith (lit "\n  ") ps]) ++
      (let ms := csMeths T.body
       if ms.isEmpty then [] else [lit "Methods:\n  " ++ joinWith (lit "\n  ") ms]))

def csTypeSection (docs : List (Nat × List Char)) (T : CsType) : List Char :=
  joinWith (lit "\n") (csTypeInfo docs T)

/-! ## Rendering and dispatch -/

def pyClassSection (m : PyClass) : List Char :=
  joinWith (lit "\n")
    ([lit "\nClass: " ++ m.name] ++
      (match pyDocstring m.body with
       | some d => [lit "Documentation: " ++ d]
       | none => []) ++
      (let ms := pyMethods m.body
       if ms.isEmpty then [] else [lit "Methods:\n  " ++ joinWith (lit "\n  ") ms]))

def pyFuncEntry (f : PyFunc) : List Char :=
  match pyDocstring f.body with
  | some d => f.name ++ lit ": " ++ d
  | none => f.name

def pyFunctionsPart (fs : List PyFunc) : List (List Char) :=
  if fs.isEmpty then []
  else [lit "\nFunctions:\n  " ++ joinWith (lit "\n  ") (fs.map pyFuncEntry)]

def jsClassSection (m : JsClass) : List Char :=
  joinWith (lit "\n")
    ([lit "\nClass: " ++ m.name] ++
      (let ms := jsMethods m.body
       if ms.isEmpty then [] else [lit "Methods:\n  " ++ joinWith (lit "\n  ") ms]))

def jsFunctionsPart (fs : List (List Char)) : List (List Char) :=
  if fs.isEmpty then []
  else [lit "\nFunctions:\n  " ++ joinWith (lit "\n  ") fs]

/-- Is the path extension in the supported set of the extractor dispatch?
The source tests str.endswith against the five lowercase suffixes. -/
def supportedExt (path : String) : Bool :=
  pyEndsWithB path ".py" || pyEndsWithB path ".cs" ||
    pyEndsWithB path ".js" || pyEndsWithB path ".ts" || pyEndsWithB path ".tsx"

/-- The summary_parts list accumulated by extract_code_context, in the
exact append order of the source: first the import block chosen by the
first extension chain, then the language sections of the second chain. -/
def sections (path : String) (text : String) : List (List Char) :=
  let c := text.toList
  let importsPart : List (List Char) :=
    if pyEndsWithB path ".py" then
      (let im := pyImports c
       if im.isEmpty then [] else [lit "Imports:\n" ++ joinWith (lit "\n") im])
    else if pyEndsWithB path ".cs" then
      (let us := csUsings c
       if us.isEmpty then [] else [lit "Using Statements:\n" ++ joinWith (lit "\n") us])
    else if pyEndsWithB path ".js" || pyEndsWithB path ".ts" || pyEndsWithB path ".tsx" then
      (let im := jsImports c
       if im.isEmpty then [] else [lit "Imports:\n" ++ joinWith (lit "\n") im])
    else []
  let langParts : List (List Char) :=
    if pyEndsWithB path ".cs" then
      (match csNamespace c with
       | some n => [lit "\nNamespace: " ++ n]
       | none => []) ++
        (csTypeMatches c).map (csTypeSection (csDocMatches c))
    else if pyEndsWithB path ".py" then
      (pyClassMatches c).map pyClassSection ++ pyFunctionsPart (pyFuncMatches c)
    else if pyEndsWithB path ".js" || pyEndsWithB path ".ts" || pyEndsWithB path ".tsx" then
      (jsClassMatches c).map jsClassSection ++ jsFunctionsPart (jsFuncNames c)
    else []
  importsPart ++ langParts

def noContextSentinel : String := "No code context extracted."

/-- extract_code_context over (path, text): join the collected summary
parts with newlines, or the sentinel when none were collected. -/
def extract_code_context (path : String) (text : String) : String :=
  let s := sections path text
  if s.isEmpty then noContextSentinel else String.mk (joinWith (lit "\n") s)

/-! ## find_block_end -/

/-- The while loop of the brace branch: the stack is embedded as its
length, the loop stops at the end of the text or when the stack empties,
and the returned position is one past the last processed character. -/
def braceScan : List Char → Nat → Nat → Nat
  | [], _, pos => pos
  | ch :: rest, d, pos =>
    if d = 0 then pos
    else braceScan rest (if ch = '{' then d + 1 else if ch = '}' then d - 1 else d) (pos + 1)

/-- The indentation loop: lines are the newline-split segments of the text
from the first body line on; the final segment has no newline and is never
examined (the source breaks out and returns the total length there). -/
def lineLoop (total : Nat) (baseIndent : List Char) :
    List (List Char) → Nat → Nat
  | [], _ => total
  | [_last], _ => total
  | l :: l2 :: rest, pos =>
    if !(l.all isPySpace) && !(baseIndent.isPrefixOf l) then pos
    else lineLoop total baseIndent (l2 :: rest) (pos + l.length + 1)

/-- find_block_end: locate a colon (else a brace) from start; for a colon
block, scan lines from after the following newline against the indentation
of the first line; for a brace block, scan with a brace stack. -/
def find_block_end (content : String) (start : Nat) : Nat :=
  let c := content.toList
  match findFrom c ':' start with
  | some colonPos =>
    match findFrom c '\n' colonPos with
    | none => start
    | some nl =>
      let bs := nl + 1
      let baseIndent := (c.drop bs).takeWhile (fun x => x = ' ' || x = '\t')
      lineLoop c.length baseIndent (splitNl (c.drop bs)) bs
  | none =>
    match findFrom c '{' start with
    | none => start
    | some bp => braceScan (c.drop (bp + 1)) 1 (bp + 1)

/-! ## get_file_type -/

/-- os.path.splitext extension: the part from the last dot of the basename,
unless every character of the basename before that dot is itself a dot. -/
def splitextExt (path : String) : String :=
  let c := path.toList
  match lastIdxOf c '.' with
  | none => ""
  | some di =>
    let fi : Nat :=
      match lastIdxOf c '/' with
      | none => 0
      | some s => s + 1
    if fi ≤ di && (sliceAt c fi (di - fi)).any (fun x => !(x = '.')) then
      String.mk (c.drop di)
    else ""

def pyLowerStr (s : String) : String := String.mk (s.toList.map Char.toLower)

def get_file_type (path : String) : String :=
  let ext := pyLowerStr (splitextExt path)
  if [".py", ".cs", ".js", ".ts", ".tsx", ".jsx", ".java", ".cpp", ".h", ".hpp"].contains ext then
    "source_code"
  else if [".md", ".txt", ".rst", ".doc", ".docx", ".pdf"].contains ext then
    "documentation"
  else if [".json", ".yaml", ".yml", ".xml", ".ini", ".config", ".env"].contains ext then
    "configuration"
  else if [".csproj", ".sln", ".pyproj", ".npmrc", ".gitignore"].contains ext then
    "project"
  else if [".log"].contains ext then "log"
  else if isSubstr (lit "test") (pyLowerStr path).toList ||
      isSubstr (lit "spec") (pyLowerStr path).toList then "test"
  else "other"

/-- Dyck-balance check for brace sequences: scanning with a depth counter
never dips below zero and ends at zero. -/
def braceBal : List Char → Nat → Bool
  | [], d => d = 0
  | ch :: r, d =>
    if ch = '{' then braceBal r (d + 1)
    else if ch = '}' then decide (0 < d) && braceBal r (d - 1)
    else braceBal r d

/-- Newline-terminated concatenation of a list of lines. -/
def linesJoin : List (List Char) → List Char
  | [] => []
  | l :: rest => l ++ '\n' :: linesJoin rest

/-- Leading-space count of a line (its indentation in spaces). -/
def leadingSpaces (l : List Char) : Nat := (l.takeWhile (fun x => x = ' ')).length

/-- The selected strategy recognized no declaration of any category. -/
def noDeclarations (path text : String) : Prop :=
  (pyEndsWithB path ".py" = true →
    pyImports text.toList = [] ∧ pyClassMatches text.toList = [] ∧
      pyFuncMatches text.toList = []) ∧
  (pyEndsWithB path ".cs" = true →
    csUsings text.toList = [] ∧ csNamespace text.toList = none ∧
      csTypeMatches text.toList = []) ∧
  ((pyEndsWithB path ".js" || pyEndsWithB path ".ts" || pyEndsWithB path ".tsx") = true →
    jsImports text.toList = [] ∧ jsClassMatches text.toList = [] ∧
      jsFuncNames text.toList = [])

/-! ## Helper lemmas -/

theorem joinWith_cons_decomp (sep x : List Char) (xs : List (List Char)) :
    ∃ r, joinWith sep (x :: xs) = x ++ r := by
  cases xs with
  | nil => exact ⟨[], by simp [joinWith]⟩
  | cons y ys => exact ⟨sep ++ joinWith sep (y :: ys), by simp [joinWith]⟩

theorem isPrefixOf_cons_iff (a : Char) (as l : List Char) :
    (a :: as).isPrefixOf l = true ↔ ∃ t, l = a :: t ∧ as.isPrefixOf t = true := by
  cases l with
  | nil => simp [List.isPrefixOf]
  | cons x xs =>
    constructor
    · intro h
      have hx : (a == x) = true ∧ as.isPrefixOf xs = true := by
        simpa [List.isPrefixOf, Bool.and_eq_true] using h
      have hax : a = x := by
        have := hx.1
        simpa [beq_iff_eq] using this
      exact ⟨xs, by simp [hax], hx.2⟩
    · rintro ⟨t, ht, hp⟩
      cases ht
      simp [List.isPrefixOf, hp]

theorem pyEndsWithB_shape {p : String} {suffix : String} (a : Char) (as : List Char)
    (hsuf : suffix.toList.reverse = a :: as) (h : pyEndsWithB p suffix = true) :
    ∃ t, p.toList.reverse = a :: t ∧ as.isPrefixOf t = true := by
  unfold pyEndsWithB at h
  rw [hsuf] at h
  exact (isPrefixOf_cons_iff a as _).mp h

/-- Mutual exclusion of the dispatch suffixes that share no reversed prefix
of length two. -/
theorem endsWith_py_excl {p : String} (h : pyEndsWithB p ".py" = true) :
    pyEndsWithB p ".cs" = false ∧ pyEndsWithB p ".js" = false ∧
      pyEndsWithB p ".ts" = false ∧ pyEndsWithB p ".tsx" = false := by
  obtain ⟨t, ht, -⟩ := pyEndsWithB_shape 'y' ['p', '.'] (by decide) h
  refine ⟨?_, ?_, ?_, ?_⟩ <;>
    · unfold pyEndsWithB
      rw [ht]
      simp [List.isPrefixOf]

theorem endsWith_cs_excl {p : String} (h : pyEndsWithB p ".cs" = true) :
    pyEndsWithB p ".py" = false ∧ pyEndsWithB p ".js" = false ∧
      pyEndsWithB p ".ts" = false ∧ pyEndsWithB p ".tsx" = false := by
  obtain ⟨t, ht, hp⟩ := pyEndsWithB_shape 's' ['c', '.'] (by decide) h
  obtain ⟨t2, ht2, -⟩ := (isPrefixOf_cons_iff 'c' ['.'] t).mp hp
  subst ht2
  refine ⟨?_, ?_, ?_, ?_⟩ <;>
    · unfold pyEndsWithB
      rw [ht]
      simp [List.isPrefixOf]

theorem endsWith_js_excl {p : String} (h : pyEndsWithB p ".js" = true) :
    pyEndsWithB p ".py" = false ∧ pyEndsWithB p ".cs" = false := by
  obtain ⟨t, ht, hp⟩ := pyEndsWithB_shape 's' ['j', '.'] (by decide) h
  obtain ⟨t2, ht2, -⟩ := (isPrefixOf_cons_iff 'j' ['.'] t).mp hp
  subst ht2
  constructor <;>
    · unfold pyEndsWithB
      rw [ht]
      simp [List.isPrefixOf]

theorem endsWith_ts_excl {p : String} (h : pyEndsWithB p ".ts" = true) :
    pyEndsWithB p ".py" = false ∧ pyEndsWithB p ".cs" = false := by
  obtain ⟨t, ht, hp⟩ := pyEndsWithB_shape 's' ['t', '.'] (by decide) h
  obtain ⟨t2, ht2, -⟩ := (isPrefixOf_cons_iff 't' ['.'] t).mp hp
  subst ht2
  constructor <;>
    · unfold pyEndsWithB
      rw [ht]
      simp [List.isPrefixOf]

theorem endsWith_tsx_excl {p : String} (h : pyEndsWithB p ".tsx" = true) :
    pyEndsWithB p ".py" = false ∧ pyEndsWithB p ".cs" = false := by
  obtain ⟨t, ht, -⟩ := pyEndsWithB_shape 'x' ['s', 't', '.'] (by decide) h
  constructor <;>
    · unfold pyEndsWithB
      rw [ht]
      simp [List.isPrefixOf]

theorem joinWith_shape (sep : List Char) (a : Char) (h : List Char) (xs : List (List Char)) :
    ∃ tl, joinWith sep ((a :: h) :: xs) = a :: tl := by
  obtain ⟨r, hr⟩ := joinWith_cons_decomp sep (a :: h) xs
  exact ⟨h ++ r, by rw [hr]; rfl⟩

theorem csTypeSection_shape (docs : List (Nat × List Char)) (T : CsType) :
    ∃ tl, csTypeSection docs T = '\n' :: tl := by
  unfold csTypeSection csTypeInfo
  rw [show lit "\n" = ['\n'] from rfl]
  simp only [List.singleton_append, List.cons_append, List.append_assoc]
  exact joinWith_shape _ _ _ _

theorem pyClassSection_shape (m : PyClass) : ∃ tl, pyClassSection m = '\n' :: tl := by
  unfold pyClassSection
  rw [show lit "\nClass: " = '\n' :: lit "Class: " from rfl]
  simp only [List.singleton_append, List.cons_append, List.append_assoc]
  exact joinWith_shape _ _ _ _

theorem jsClassSection_shape (m : JsClass) : ∃ tl, jsClassSection m = '\n' :: tl := by
  unfold jsClassSection
  rw [show lit "\nClass: " = '\n' :: lit "Class: " from rfl]
  simp only [List.singleton_append, List.cons_append, List.append_assoc]
  exact joinWith_shape _ _ _ _

/-- Every collected summary part is nonempty and starts with the first
character of its section label: I for import blocks, U for using blocks,
and a newline for every other section. -/
theorem mem_sections_shape {path text : String} {s : List Char}
    (hs : s ∈ sections path text) :
    ∃ a tl, s = a :: tl ∧ (a = 'I' ∨ a = 'U' ∨ a = '\n') := by
  unfold sections at hs
  simp only [] at hs
  rcases List.mem_append.mp hs with h | h
  · split at h
    · split at h
      · simp at h
      · rw [List.mem_singleton] at h
        exact ⟨'I', _, by rw [h]; rfl, Or.inl rfl⟩
    · split at h
      · split at h
        · simp at h
        · rw [List.mem_singleton] at h
          exact ⟨'U', _, by rw [h]; rfl, Or.inr (Or.inl rfl)⟩
      · split at h
        · split at h
          · simp at h
          · rw [List.mem_singleton] at h
            exact ⟨'I', _, by rw [h]; rfl, Or.inl rfl⟩
        · simp at h
  · split at h
    · rcases List.mem_append.mp h with h2 | h2
      · split at h2
        · rw [List.mem_singleton] at h2
          exact ⟨'\n', _, by rw [h2]; rfl, Or.inr (Or.inr rfl)⟩
        · simp at h2
      · obtain ⟨T, -, hT⟩ := List.mem_map.mp h2
        obtain ⟨tl, htl⟩ := csTypeSection_shape (csDocMatches text.toList) T
        exact ⟨'\n', tl, by rw [← hT, htl], Or.inr (Or.inr rfl)⟩
    · split at h
      · rcases List.mem_append.mp h with h2 | h2
        · obtain ⟨m, -, hm⟩ := List.mem_map.mp h2
          obtain ⟨tl, htl⟩ := pyClassSection_shape m
          exact ⟨'\n', tl, by rw [← hm, htl], Or.inr (Or.inr rfl)⟩
        · unfold pyFunctionsPart at h2
          split at h2
          · simp at h2
          · rw [List.mem_singleton] at h2
            exact ⟨'\n', _, by rw [h2]; rfl, Or.inr (Or.inr rfl)⟩
      · split at h
        · rcases List.mem_append.mp h with h2 | h2
          · obtain ⟨m, -, hm⟩ := List.mem_map.mp h2
            obtain ⟨tl, htl⟩ := jsClassSection_shape m
            exact ⟨'\n', tl, by rw [← hm, htl], Or.inr (Or.inr rfl)⟩
          · unfold jsFunctionsPart at h2
            split at h2
            · simp at h2
            · rw [List.mem_singleton] at h2
              exact ⟨'\n', _, by rw [h2]; rfl, Or.inr (Or.inr rfl)⟩
        · simp at h

/-- With at least one collected part the joined summary cannot be the
sentinel: the first characters already differ. -/
theorem extract_sentinel_iff_sections_nil (path text : String) :
    extract_code_context path text = noContextSentinel ↔ sections path text = [] := by
  cases hsec : sections path text with
  | nil =>
    have hx : extract_code_context path text = noContextSentinel := by
      unfold extract_code_context
      rw [hsec]
      rfl
    simp [hx]
  | cons s rest =>
    have hx : extract_code_context path text = String.mk (joinWith (lit "\n") (s :: rest)) := by
      unfold extract_code_context
      rw [hsec]
      rfl
    constructor
    · intro hEq
      exfalso
      obtain ⟨a, tl, hshape, hav⟩ :=
        @mem_sections_shape path text s (hsec ▸ List.mem_cons_self s rest)
      have hdata : joinWith (lit "\n") (s :: rest) = lit "No code context extracted." := by
        have h2 : String.mk (joinWith (lit "\n") (s :: rest)) = noContextSentinel := by
          rw [← hx, hEq]
        have h3 := congrArg String.toList h2
        exact h3
      obtain ⟨r, hr⟩ := joinWith_cons_decomp (lit "\n") s rest
      rw [hr, hshape] at hdata
      have hhead : (a :: (tl ++ r)).head? = (lit "No code context extracted.").head? := by
        rw [List.cons_append] at hdata
        rw [hdata]
      rw [show (lit "No code context extracted.").head? = some 'N' from rfl] at hhead
      have ha : a = 'N' := by simpa using hhead
      rcases hav with h | h | h <;> simp [h] at ha
    · intro h
      simp at h

theorem sections_of_unsupported {path : String} (text : String)
    (h : supportedExt path = false) : sections path text = [] := by
  have hpy : pyEndsWithB path ".py" = false := by
    unfold supportedExt at h
    cases hb : pyEndsWithB path ".py" <;> simp [hb] at h ⊢
  have hcs : pyEndsWithB path ".cs" = false := by
    unfold supportedExt at h
    cases hb : pyEndsWithB path ".cs" <;> simp [hb] at h ⊢
  have hjs : pyEndsWithB path ".js" = false := by
    unfold supportedExt at h
    cases hb : pyEndsWithB path ".js" <;> simp [hb] at h ⊢
  have hts : pyEndsWithB path ".ts" = false := by
    unfold supportedExt at h
    cases hb : pyEndsWithB path ".ts" <;> simp [hb] at h ⊢
  have htsx : pyEndsWithB path ".tsx" = false := by
    unfold supportedExt at h
    cases hb : pyEndsWithB path ".tsx" <;> simp [hb] at h ⊢
  unfold sections
  simp [hpy, hcs, hjs, hts, htsx]

theorem sections_py {path : String} (text : String)
    (hpy : pyEndsWithB path ".py" = true) :
    sections path text =
      (let im := pyImports text.toList
       if im.isEmpty then [] else [lit "Imports:\n" ++ joinWith (lit "\n") im]) ++
        ((pyClassMatches text.toList).map pyClassSection ++
          pyFunctionsPart (pyFuncMatches text.toList)) := by
  obtain ⟨hcs, -, -, -⟩ := endsWith_py_excl hpy
  unfold sections
  simp [hpy, hcs]

theorem sections_cs {path : String} (text : String)
    (hcs : pyEndsWithB path ".cs" = true) :
    sections path text =
      (let us := csUsings text.toList
       if us.isEmpty then [] else [lit "Using Statements:\n" ++ joinWith (lit "\n") us]) ++
        ((match csNamespace text.toList with
          | some n => [lit "\nNamespace: " ++ n]
          | none => []) ++
          (csTypeMatches text.toList).map (csTypeSection (csDocMatches text.toList))) := by
  obtain ⟨hpy, -, -, -⟩ := endsWith_cs_excl hcs
  unfold sections
  simp [hpy, hcs]

theorem sections_js {path : String} (text : String)
    (hjs : (pyEndsWithB path ".js" || pyEndsWithB path ".ts" || pyEndsWithB path ".tsx") = true) :
    sections path text =
      (let im := jsImports text.toList
       if im.isEmpty then [] else [lit "Imports:\n" ++ joinWith (lit "\n") im]) ++
        ((jsClassMatches text.toList).map jsClassSection ++
          jsFunctionsPart (jsFuncNames text.toList)) := by
  have hpy : pyEndsWithB path ".py" = false := by
    rcases Bool.or_eq_true _ _ |>.mp hjs with h | h
    · rcases Bool.or_eq_true _ _ |>.mp h with h | h
      · exact (endsWith_js_excl h).1
      · exact (endsWith_ts_excl h).1
    · exact (endsWith_tsx_excl h).1
  have hcs : pyEndsWithB path ".cs" = false := by
    rcases Bool.or_eq_true _ _ |>.mp hjs with h | h
    · rcases Bool.or_eq_true _ _ |>.mp h with h | h
      · exact (endsWith_js_excl h).2
      · exact (endsWith_ts_excl h).2
    · exact (endsWith_tsx_excl h).2
  unfold sections
  simp [hpy, hcs, hjs]

theorem partIf_eq_nil_iff (l : List (List Char)) (x : List Char) :
    (if l.isEmpty then [] else [x]) = [] ↔ l = [] := by
  cases l <;> simp

theorem pyFunctionsPart_eq_nil_iff (fs : List PyFunc) :
    pyFunctionsPart fs = [] ↔ fs = [] := by
  cases fs <;> simp [pyFunctionsPart]

theorem jsFunctionsPart_eq_nil_iff (fs : List (List Char)) :
    jsFunctionsPart fs = [] ↔ fs = [] := by
  cases fs <;> simp [jsFunctionsPart]

theorem nsPart_eq_nil_iff (o : Option (List Char)) :
    (match o with
      | some n => [lit "\nNamespace: " ++ n]
      | none => ([] : List (List Char))) = [] ↔ o = none := by
  cases o <;> simp

theorem sections_eq_nil_iff (path text : String) :
    sections path text = [] ↔
      (supportedExt path = false ∨ noDeclarations path text) := by
  by_cases hpy : pyEndsWithB path ".py" = true
  · obtain ⟨hcs, hjs, hts, htsx⟩ := endsWith_py_excl hpy
    have hsup : supportedExt path = true := by
      unfold supportedExt
      simp [hpy]
    rw [sections_py text hpy]
    constructor
    · intro h
      obtain ⟨h1, h2⟩ := List.append_eq_nil.mp h
      obtain ⟨h2a, h2b⟩ := List.append_eq_nil.mp h2
      right
      refine ⟨fun _ => ⟨?_, ?_, ?_⟩, fun hb => by rw [hcs] at hb; simp at hb,
        fun hb => by rw [hjs, hts, htsx] at hb; simp at hb⟩
      · exact (partIf_eq_nil_iff _ _).mp h1
      · exact List.map_eq_nil.mp h2a
      · exact (pyFunctionsPart_eq_nil_iff _).mp h2b
    · intro h
      rcases h with hb | hnd
      · rw [hsup] at hb
        simp at hb
      · obtain ⟨h1, h2, h3⟩ := hnd.1 hpy
        rw [h1, h2, h3]
        simp [pyFunctionsPart]
  · by_cases hcs : pyEndsWithB path ".cs" = true
    · obtain ⟨-, hjs, hts, htsx⟩ := endsWith_cs_excl hcs
      have hsup : supportedExt path = true := by
        unfold supportedExt
        simp [hcs]
      rw [sections_cs text hcs]
      constructor
      · intro h
        obtain ⟨h1, h2⟩ := List.append_eq_nil.mp h
        obtain ⟨h2a, h2b⟩ := List.append_eq_nil.mp h2
        right
        refine ⟨fun hb => absurd hb hpy, fun _ => ⟨?_, ?_, ?_⟩,
          fun hb => by rw [hjs, hts, htsx] at hb; simp at hb⟩
        · exact (partIf_eq_nil_iff _ _).mp h1
        · exact (nsPart_eq_nil_iff _).mp h2a
        · exact List.map_eq_nil.mp h2b
      · intro h
        rcases h with hb | hnd
        · rw [hsup] at hb
          simp at hb
        · obtain ⟨h1, h2, h3⟩ := hnd.2.1 hcs
          rw [h1, h2, h3]
          simp
    · by_cases hjs : (pyEndsWithB path ".js" || pyEndsWithB path ".ts" ||
          pyEndsWithB path ".tsx") = true
      · have hsup : supportedExt path = true := by
          unfold supportedExt
          rcases Bool.or_eq_true _ _ |>.mp hjs with h | h
          · rcases Bool.or_eq_true _ _ |>.mp h with h | h <;> simp [h]
          · simp [h]
        rw [sections_js text hjs]
        constructor
        · intro h
          obtain ⟨h1, h2⟩ := List.append_eq_nil.mp h
          obtain ⟨h2a, h2b⟩ := List.append_eq_nil.mp h2
          right
          refine ⟨fun hb => absurd hb hpy, fun hb => absurd hb hcs, fun _ => ⟨?_, ?_, ?_⟩⟩
          · exact (partIf_eq_nil_iff _ _).mp h1
          · exact List.map_eq_nil.mp h2a
          · exact (jsFunctionsPart_eq_nil_iff _).mp h2b
        · intro h
          rcases h with hb | hnd
          · rw [hsup] at hb
            simp at hb
          · obtain ⟨h1, h2, h3⟩ := hnd.2.2 hjs
            rw [h1, h2, h3]
            simp [jsFunctionsPart]
      · have hjsF : (pyEndsWithB path ".js" || pyEndsWithB path ".ts" ||
            pyEndsWithB path ".tsx") = false := Bool.eq_false_iff.mpr hjs
        obtain ⟨hjt, htsxF⟩ := Bool.or_eq_false_iff.mp hjsF
        obtain ⟨hjsF2, htsF⟩ := Bool.or_eq_false_iff.mp hjt
        have hsup : supportedExt path = false := by
          unfold supportedExt
          rw [Bool.eq_false_iff.mpr hpy, Bool.eq_false_iff.mpr hcs, hjsF2, htsF, htsxF]
          rfl
        rw [sections_of_unsupported text hsup]
        simp [hsup]

/-! ## Claim theorems -/

/-- C1: extract_code_context returns exactly the sentinel string
"No code context extracted." precisely when the path does not end in one of
the supported extensions .py, .cs, .js, .ts, .tsx, or when the selected
strategy recognizes zero declarations of any category (no imports or using
lines, no namespace, no type or class matches, no functions); otherwise the
result is a non-sentinel summary. -/
theorem extract_code_context_sentinel_iff (path text : String) :
    extract_code_context path text = noContextSentinel ↔
      (supportedExt path = false ∨ noDeclarations path text) :=
  (extract_sentinel_iff_sections_nil path text).trans (sections_eq_nil_iff path text)

/-- C3: extract_code_context is total over all (path, text) inputs: being a
plain function of its inputs it always returns a value, namely either the
sentinel or the newline-join of its collected summary parts, and a category
whose pattern matched zero times contributes no part at all — in particular
no empty part and no failure marker ever appears in the output. -/
theorem extract_code_context_total (path text : String) :
    extract_code_context path text = noContextSentinel ∨
      (sections path text ≠ [] ∧
        extract_code_context path text =
          String.mk (joinWith (lit "\n") (sections path text)) ∧
        ∀ s ∈ sections path text, s ≠ []) := by
  cases hsec : sections path text with
  | nil =>
    left
    unfold extract_code_context
    rw [hsec]
    rfl
  | cons s rest =>
    right
    refine ⟨by simp, ?_, ?_⟩
    · unfold extract_code_context
      rw [hsec]
      rfl
    · intro x hx
      have hx2 : x ∈ sections path text := by
        rw [hsec]
        exact hx
      obtain ⟨a, tl, hsh, -⟩ := mem_sections_shape hx2
      rw [hsh]
      simp

/-- C4: on the end-to-end scenario text, under the applicable language
strategy (JavaScript, extension .js), the extractor yields two type
sections: Foo with exactly the one method Bar, and Baz with no members. -/
theorem extract_code_context_end_to_end_js :
    extract_code_context "app.js"
        "class Foo \x7b public int Bar() \x7b return 1; \x7d \x7d\nclass Baz \x7b\x7d" =
      "\nClass: Foo\nMethods:\n  Bar\n\nClass: Baz" := by
  decide

/-- C8 (amended): extension dispatch is case-sensitive, not
case-insensitive: only the exact lowercase suffixes .py, .cs, .js, .ts,
.tsx select a strategy, and a path not ending in one of them — such as one
with an upper-case extension — always yields the sentinel, so two paths
whose extensions differ only in letter case need not give equal output. -/
theorem extract_code_context_case_sensitive (path text : String)
    (h : supportedExt path = false) :
    extract_code_context path text = noContextSentinel := by
  rw [extract_sentinel_iff_sections_nil]
  exact sections_of_unsupported text h

/-- Witness for C8 (amended) at the concrete path a.PY. -/
theorem extract_code_context_case_sensitive_witness :
    supportedExt "a.PY" = false ∧
      extract_code_context "a.PY" "import os" = noContextSentinel :=
  ⟨by decide, extract_code_context_case_sensitive "a.PY" "import os" (by decide)⟩

/-- C8 (counterexample): the paths a.PY and a.py differ only in extension
letter case yet extract_code_context returns different outputs on the same
text, refuting case-insensitive dispatch. -/
theorem extract_code_context_upper_ext_differs :
    extract_code_context "a.PY" "import os" ≠ extract_code_context "a.py" "import os" ∧
      extract_code_context "a.PY" "import os" = noContextSentinel ∧
      extract_code_context "a.py" "import os" = "Imports:\nimport os" := by
  refine ⟨by decide, by decide, by decide⟩

/-- C5 (amended): in the C-sharp strategy every rendered method entry comes
from a method name that does not begin with get_ or set_ — those accessor
names are filtered out before rendering.  (The Python and JS/TS strategies
apply no such filter; see the counterexample.) -/
theorem cs_methods_filter_accessors (body : List Char) (s : List Char)
    (hs : s ∈ csMeths body) :
    ∃ nm rt, s = nm ++ lit "(): " ++ rt ∧
      (lit "get_").isPrefixOf nm = false ∧ (lit "set_").isPrefixOf nm = false := by
  unfold csMeths at hs
  obtain ⟨m, hm, hmap⟩ := List.mem_filterMap.mp hs
  split at hmap
  · exact absurd hmap (by simp)
  · rename_i hcond
    have hcond2 : ((lit "get_").isPrefixOf m.2 || (lit "set_").isPrefixOf m.2) = false :=
      Bool.eq_false_iff.mpr hcond
    obtain ⟨hg, hsf⟩ := Bool.or_eq_false_iff.mp hcond2
    exact ⟨m.2, pyStrip m.1, (Option.some.inj hmap).symm, hg, hsf⟩

/-- Witness for C5 (amended): a C-sharp body declaring both get_Q and Go
renders only the entry for Go. -/
theorem cs_methods_filter_accessors_witness :
    (lit "Go(): int") ∈ csMeths (lit "public int get_Q(); public int Go();") ∧
      (∃ nm rt, lit "Go(): int" = nm ++ lit "(): " ++ rt ∧
        (lit "get_").isPrefixOf nm = false ∧ (lit "set_").isPrefixOf nm = false) :=
  ⟨by decide,
    cs_methods_filter_accessors (lit "public int get_Q(); public int Go();")
      (lit "Go(): int") (by decide)⟩

/-- C5 (counterexample): the Python strategy applies no accessor filter — a
method named get_x appears verbatim in the rendered Methods section. -/
theorem py_methods_accessor_not_filtered :
    extract_code_context "a.py" "class A:\n    def get_x(self):\n        pass\n" =
      "\nClass: A\nMethods:\n  get_x" := by
  decide

theorem pyClassesAux_starts (c : List Char) :
    ∀ fuel p m, m ∈ pyClassesAux c fuel p → isLineStartB c m.start = true := by
  intro fuel
  induction fuel with
  | zero =>
    intro p m hm
    simp [pyClassesAux] at hm
  | succ f ih =>
    intro p m hm
    unfold pyClassesAux at hm
    split at hm
    · simp at hm
    · split at hm
      · rename_i hls
        split at hm
        · rcases List.mem_cons.mp hm with h | h
          · rw [h]
            exact hls
          · exact ih _ _ h
        · exact ih _ _ hm
      · exact ih _ _ hm

theorem pyFuncsAux_starts (c : List Char) :
    ∀ fuel p m, m ∈ pyFuncsAux c fuel p → isLineStartB c m.start = true := by
  intro fuel
  induction fuel with
  | zero =>
    intro p m hm
    simp [pyFuncsAux] at hm
  | succ f ih =>
    intro p m hm
    unfold pyFuncsAux at hm
    split at hm
    · simp at hm
    · split at hm
      · rename_i hls
        split at hm
        · rcases List.mem_cons.mp hm with h | h
          · rw [h]
            exact hls
          · exact ih _ _ h
        · exact ih _ _ hm
      · exact ih _ _ hm

theorem jsClassesAux_starts (c : List Char) :
    ∀ fuel p m, m ∈ jsClassesAux c fuel p → isLineStartB c m.start = true := by
  intro fuel
  induction fuel with
  | zero =>
    intro p m hm
    simp [jsClassesAux] at hm
  | succ f ih =>
    intro p m hm
    unfold jsClassesAux at hm
    split at hm
    · simp at hm
    · split at hm
      · rename_i hls
        split at hm
        · rcases List.mem_cons.mp hm with h | h
          · rw [h]
            exact hls
          · exact ih _ _ h
        · exact ih _ _ hm
      · exact ih _ _ hm

/-- C10 (amended): the Python class and function patterns and the JS/TS
class pattern are line-anchored, so every such match starts at column 0 —
an indented class or def never contributes one of these sections.  The
JS/TS function pattern however is not anchored; see the counterexample. -/
theorem anchored_headers_line_start (text : String) :
    (∀ m ∈ pyClassMatches text.toList, isLineStartB text.toList m.start = true) ∧
      (∀ m ∈ pyFuncMatches text.toList, isLineStartB text.toList m.start = true) ∧
      (∀ m ∈ jsClassMatches text.toList, isLineStartB text.toList m.start = true) :=
  ⟨fun m hm => pyClassesAux_starts text.toList _ _ m hm,
    fun m hm => pyFuncsAux_starts text.toList _ _ m hm,
    fun m hm => jsClassesAux_starts text.toList _ _ m hm⟩

/-- Witness for C10 (amended) on a concrete class match at column 0. -/
theorem anchored_headers_line_start_witness :
    (⟨0, lit "A", []⟩ : PyClass) ∈ pyClassMatches (String.toList "class A:\n") ∧
      isLineStartB (String.toList "class A:\n") 0 = true :=
  ⟨by decide,
    (anchored_headers_line_start "class A:\n").1 ⟨0, lit "A", []⟩ (by decide)⟩

/-- C10 (counterexample): the JS function pattern is unanchored — an
indented function declaration still contributes a Functions entry. -/
theorem js_function_indented_contributes :
    extract_code_context "a.js" "  function foo() \x7b\x7d" = "\nFunctions:\n  foo" := by
  decide

theorem endsWith_jsx_excl {p : String} (h : pyEndsWithB p ".jsx" = true) :
    supportedExt p = false := by
  obtain ⟨t, ht, hp⟩ := pyEndsWithB_shape 'x' ['s', 'j', '.'] (by decide) h
  obtain ⟨t2, ht2, hp2⟩ := (isPrefixOf_cons_iff 's' ['j', '.'] t).mp hp
  obtain ⟨t3, ht3, -⟩ := (isPrefixOf_cons_iff 'j' ['.'] t2).mp hp2
  subst ht3
  subst ht2
  unfold supportedExt pyEndsWithB
  rw [ht]
  simp [List.isPrefixOf]

/-- C9 (amended): for every path that ends in .jsx and whose basename has a
real .jsx extension in the sense of os.path.splitext (some non-dot
character precedes the final dot), get_file_type classifies the file as
source_code — so the pipeline invokes context extraction on it — while
extract_code_context returns the sentinel for every text, because no
extraction branch matches the .jsx extension. -/
theorem jsx_source_code_no_extraction (path text : String)
    (h1 : pyEndsWithB path ".jsx" = true) (h2 : splitextExt path = ".jsx") :
    get_file_type path = "source_code" ∧
      extract_code_context path text = noContextSentinel := by
  constructor
  · unfold get_file_type
    rw [h2]
    rfl
  · rw [extract_sentinel_iff_sections_nil]
    exact sections_of_unsupported text (endsWith_jsx_excl h1)

/-- Witness for C9 (amended) at the concrete path App.jsx. -/
theorem jsx_source_code_no_extraction_witness :
    (pyEndsWithB "App.jsx" ".jsx" = true ∧ splitextExt "App.jsx" = ".jsx") ∧
      (get_file_type "App.jsx" = "source_code" ∧
        extract_code_context "App.jsx" "class Foo \x7b\x7d" = noContextSentinel) :=
  ⟨⟨by decide, by decide⟩,
    jsx_source_code_no_extraction "App.jsx" "class Foo \x7b\x7d" (by decide) (by decide)⟩

/-- C9 (counterexample): the path .jsx (a dotfile) ends in .jsx, yet
os.path.splitext assigns it no extension, so get_file_type classifies it as
other rather than source_code, refuting the claim quantified over every
path ending in .jsx. -/
theorem jsx_dotfile_not_source_code :
    pyEndsWithB ".jsx" ".jsx" = true ∧ get_file_type ".jsx" = "other" ∧
      get_file_type ".jsx" ≠ "source_code" := by
  refine ⟨by decide, by decide, by decide⟩

theorem findFromAux_eq_none {ch : Char} :
    ∀ (l : List Char) (i : Nat), (∀ x ∈ l, x ≠ ch) → findFromAux ch l i = none := by
  intro l
  induction l with
  | nil => intro i _; rfl
  | cons x r ih =>
    intro i h
    unfold findFromAux
    rw [if_neg (h x (List.mem_cons_self _ _))]
    exact ih _ (fun y hy => h y (List.mem_cons_of_mem _ hy))

theorem findFromAux_append {ch : Char} :
    ∀ (a l : List Char) (i : Nat), (∀ x ∈ a, x ≠ ch) →
      findFromAux ch (a ++ l) i = findFromAux ch l (i + a.length) := by
  intro a
  induction a with
  | nil => intro l i _; simp
  | cons x r ih =>
    intro l i h
    rw [List.cons_append]
    have hx : ¬(x = ch) := h x (List.mem_cons_self _ _)
    have hstep : findFromAux ch (x :: (r ++ l)) i = findFromAux ch (r ++ l) (i + 1) := by
      simp only [findFromAux, if_neg hx]
    rw [hstep, ih l (i + 1) (fun y hy => h y (List.mem_cons_of_mem _ hy))]
    congr 1
    simp only [List.length_cons]
    omega

theorem braceScan_zero : ∀ (B : List Char) (p : Nat), braceScan B 0 p = p := by
  intro B p
  cases B <;> simp [braceScan]

/-- Scanning a balanced brace segment from depth d + 1 never empties the
stack inside the segment: the loop consumes exactly the segment and is left
at the matching depth. -/
theorem braceScan_append :
    ∀ (A : List Char) (d p : Nat) (rest : List Char), braceBal A d = true →
      braceScan (A ++ rest) (d + 1) p = braceScan rest 1 (p + A.length) := by
  intro A
  induction A with
  | nil =>
    intro d p rest h
    have hd : d = 0 := by simpa [braceBal] using h
    subst hd
    simp
  | cons ch r ih =>
    intro d p rest h
    rw [List.cons_append]
    by_cases hob : ch = '{'
    · subst hob
      have hr : braceBal r (d + 1) = true := by simpa [braceBal] using h
      have hstep : braceScan ('{' :: (r ++ rest)) (d + 1) p =
          braceScan (r ++ rest) (d + 1 + 1) (p + 1) := by
        simp [braceScan]
      rw [hstep, ih (d + 1) (p + 1) rest hr]
      congr 1
      simp only [List.length_cons]
      omega
    · by_cases hcb : ch = '}'
      · subst hcb
        have h2 : (decide (0 < d) && braceBal r (d - 1)) = true := by
          simpa [braceBal] using h
        obtain ⟨hd, hr⟩ := Bool.and_eq_true _ _ |>.mp h2
        have hdpos : 0 < d := of_decide_eq_true hd
        have hstep : braceScan ('}' :: (r ++ rest)) (d + 1) p =
            braceScan (r ++ rest) (d + 1 - 1) (p + 1) := by
          simp [braceScan]
        have hd1 : d + 1 - 1 = (d - 1) + 1 := by omega
        rw [hstep, hd1, ih (d - 1) (p + 1) rest hr]
        congr 1
        simp only [List.length_cons]
        omega
      · have hr : braceBal r d = true := by simpa [braceBal, hob, hcb] using h
        have hstep : braceScan (ch :: (r ++ rest)) (d + 1) p =
            braceScan (r ++ rest) (d + 1) (p + 1) := by
          simp [braceScan, hob, hcb]
        rw [hstep, ih d (p + 1) rest hr]
        congr 1
        simp only [List.length_cons]
        omega

/-- C2 (amended): find_block_end computes brace-block boundaries by
balanced counting — for a block whose interior A is a balanced brace
sequence (so nested types keep their closing braces inside), the returned
position is exactly one past the outer matching closing brace, not the
first closing brace.  extract_code_context however does not call this
helper; its own type-body boundary can stop at a nested closing brace (see
the counterexample). -/
theorem find_block_end_balanced_braces (pre A B : List Char)
    (hnc : (':' ∉ pre) ∧ (':' ∉ A) ∧ (':' ∉ B))
    (hnb : '{' ∉ pre)
    (hbal : braceBal A 0 = true) :
    find_block_end (String.mk (pre ++ '{' :: (A ++ '}' :: B))) 0 =
      pre.length + A.length + 2 := by
  obtain ⟨hc1, hc2, hc3⟩ := hnc
  unfold find_block_end
  have hlist : (String.mk (pre ++ '{' :: (A ++ '}' :: B))).toList =
      pre ++ '{' :: (A ++ '}' :: B) := rfl
  simp only [hlist]
  have hnone : findFrom (pre ++ '{' :: (A ++ '}' :: B)) ':' 0 = none := by
    unfold findFrom
    rw [List.drop_zero]
    apply findFromAux_eq_none
    intro x hx
    rcases List.mem_append.mp hx with h | h
    · exact fun he => hc1 (by rw [← he]; exact h)
    · rcases List.mem_cons.mp h with h | h
      · rw [h]
        decide
      · rcases List.mem_append.mp h with h | h
        · exact fun he => hc2 (by rw [← he]; exact h)
        · rcases List.mem_cons.mp h with h | h
          · rw [h]
            decide
          · exact fun he => hc3 (by rw [← he]; exact h)
  have hsome : findFrom (pre ++ '{' :: (A ++ '}' :: B)) '{' 0 = some pre.length := by
    unfold findFrom
    rw [List.drop_zero]
    rw [findFromAux_append pre ('{' :: (A ++ '}' :: B)) 0
      (fun x hx he => hnb (by rw [← he]; exact hx))]
    have : findFromAux '{' ('{' :: (A ++ '}' :: B)) (0 + pre.length) =
        some (0 + pre.length) := by
      simp [findFromAux]
    rw [this]
    congr 1
    omega
  rw [hnone, hsome]
  show braceScan ((pre ++ '{' :: (A ++ '}' :: B)).drop (pre.length + 1)) 1
      (pre.length + 1) = pre.length + A.length + 2
  have hdrop : (pre ++ '{' :: (A ++ '}' :: B)).drop (pre.length + 1) = A ++ '}' :: B := by
    have hsplit : pre ++ '{' :: (A ++ '}' :: B) = (pre ++ ['{']) ++ (A ++ '}' :: B) := by
      simp
    rw [hsplit]
    have hlen : (pre ++ ['{']).length = pre.length + 1 := by simp
    rw [← hlen, List.drop_left]
  rw [hdrop]
  rw [braceScan_append A 0 (pre.length + 1) ('}' :: B) hbal]
  have hstep : braceScan ('}' :: B) 1 (pre.length + 1 + A.length) =
      braceScan B 0 (pre.length + 1 + A.length + 1) := by
    simp [braceScan]
  rw [hstep, braceScan_zero]
  omega

/-- Witness for C2 (amended) on a block with a nested brace pair at depth
two: the boundary lands one past the outer closing brace. -/
theorem find_block_end_balanced_braces_witness :
    (((':' ∉ lit "f") ∧ (':' ∉ lit "a\x7bb\x7dc") ∧ (':' ∉ lit "y")) ∧
      ('{' ∉ lit "f") ∧ braceBal (lit "a\x7bb\x7dc") 0 = true) ∧
      find_block_end (String.mk (lit "f" ++ '{' :: (lit "a\x7bb\x7dc" ++ '}' :: lit "y"))) 0 =
        (lit "f").length + (lit "a\x7bb\x7dc").length + 2 :=
  ⟨⟨⟨by decide, by decide, by decide⟩, by decide, by decide⟩,
    find_block_end_balanced_braces (lit "f") (lit "a\x7bb\x7dc") (lit "y")
      ⟨by decide, by decide, by decide⟩ (by decide) (by decide)⟩

/-- C2 (counterexample): on a C-sharp text whose outer type contains a
nested type (brace depth two), the type pattern of extract_code_context
computes a body that stops at the first closing brace followed by a
declaration keyword: the nested closing brace is excluded and the member
after it is lost, refuting balanced counting for the extractor itself. -/
theorem type_body_truncated_at_nested_close :
    csTypeMatches
        (lit "public class Outer \x7b public class Inner \x7b \x7d public int X; \x7d") =
      [⟨0, lit "class", lit "Outer", none, lit " public class Inner \x7b "⟩] ∧
      '}' ∉ lit " public class Inner \x7b " := by
  refine ⟨by decide, by decide⟩

theorem splitNl_cons_exists : ∀ l : List Char, ∃ s ss, splitNl l = s :: ss := by
  intro l
  cases l with
  | nil => exact ⟨[], [], rfl⟩
  | cons ch r =>
    cases hsr : splitNl r with
    | nil => exact ⟨[ch], [], by simp [splitNl, hsr]⟩
    | cons s ss =>
      by_cases hch : ch = '\n'
      · exact ⟨[], s :: ss, by simp [splitNl, hsr, hch]⟩
      · exact ⟨ch :: s, ss, by simp [splitNl, hsr, hch]⟩

theorem splitNl_append_line : ∀ (l rest : List Char), '\n' ∉ l →
    splitNl (l ++ '\n' :: rest) = l :: splitNl rest := by
  intro l
  induction l with
  | nil =>
    intro rest _
    show splitNl ('\n' :: rest) = [] :: splitNl rest
    obtain ⟨s, ss, hs⟩ := splitNl_cons_exists rest
    simp [splitNl, hs]
  | cons x xs ih =>
    intro rest h
    have hx : ¬(x = '\n') := fun he => h (by rw [← he]; exact List.mem_cons_self _ _)
    have hrec := ih rest (fun hy => h (List.mem_cons_of_mem _ hy))
    rw [List.cons_append]
    simp [splitNl, hrec, hx]

theorem splitNl_linesJoin : ∀ (L : List (List Char)) (rest : List Char),
    (∀ l ∈ L, '\n' ∉ l) → splitNl (linesJoin L ++ rest) = L ++ splitNl rest := by
  intro L
  induction L with
  | nil => intro rest _; simp [linesJoin]
  | cons l L' ih =>
    intro rest h
    show splitNl ((l ++ '\n' :: linesJoin L') ++ rest) = _
    rw [List.append_assoc, List.cons_append]
    rw [splitNl_append_line l _ (h l (List.mem_cons_self _ _))]
    rw [ih rest (fun y hy => h y (List.mem_cons_of_mem _ hy))]
    rfl

theorem lineLoop_skip (total : Nat) (bi : List Char) :
    ∀ (L : List (List Char)) (tail : List (List Char)) (pos : Nat), tail ≠ [] →
      (∀ l ∈ L, l.all isPySpace = true ∨ bi.isPrefixOf l = true) →
      lineLoop total bi (L ++ tail) pos =
        lineLoop total bi tail (pos + (linesJoin L).length) := by
  intro L
  induction L with
  | nil => intro tail pos _ _; simp [linesJoin]
  | cons l L' ih =>
    intro tail pos htail h
    have hgood := h l (List.mem_cons_self _ _)
    have hnotbad : (!(l.all isPySpace) && !(bi.isPrefixOf l)) = false := by
      rcases hgood with hg | hg <;> simp [hg]
    rw [List.cons_append]
    cases hlt : L' ++ tail with
    | nil => exact absurd (List.append_eq_nil.mp hlt).2 htail
    | cons l2 rest2 =>
      have hstep : lineLoop total bi (l :: l2 :: rest2) pos =
          lineLoop total bi (l2 :: rest2) (pos + l.length + 1) := by
        simp [lineLoop, hnotbad]
      rw [hstep, ← hlt,
        ih tail _ htail (fun y hy => h y (List.mem_cons_of_mem _ hy))]
      congr 1
      simp only [linesJoin, List.length_append, List.length_cons]
      omega

theorem lineLoop_stop (total : Nat) (bi : List Char) (l : List Char)
    (tail : List (List Char)) (pos : Nat) (htail : tail ≠ [])
    (hbad : (!(l.all isPySpace) && !(bi.isPrefixOf l)) = true) :
    lineLoop total bi (l :: tail) pos = pos := by
  cases tail with
  | nil => exact absurd rfl htail
  | cons t ts => simp [lineLoop, hbad]

theorem leadingSpaces_ge_four_of_pad {l : List Char}
    (h : (lit "    ").isPrefixOf l = true) : 4 ≤ leadingSpaces l := by
  obtain ⟨t1, ht1, h1⟩ := (isPrefixOf_cons_iff ' ' (lit "   ") l).mp h
  obtain ⟨t2, ht2, h2⟩ := (isPrefixOf_cons_iff ' ' (lit "  ") t1).mp h1
  obtain ⟨t3, ht3, h3⟩ := (isPrefixOf_cons_iff ' ' (lit " ") t2).mp h2
  obtain ⟨t4, ht4, -⟩ := (isPrefixOf_cons_iff ' ' (lit "") t3).mp h3
  subst ht4
  subst ht3
  subst ht2
  subst ht1
  simp [leadingSpaces, List.takeWhile]

theorem find_block_end_colon (content : String) (colonPos nl : Nat)
    (h1 : findFrom content.toList ':' 0 = some colonPos)
    (h2 : findFrom content.toList '\n' colonPos = some nl) :
    find_block_end content 0 =
      lineLoop content.toList.length
        ((content.toList.drop (nl + 1)).takeWhile (fun x => x = ' ' || x = '\t'))
        (splitNl (content.toList.drop (nl + 1))) (nl + 1) := by
  unfold find_block_end
  simp only []
  split
  · rename_i cp hcp
    rw [h1] at hcp
    injection hcp with hcp
    subst hcp
    split
    · rename_i hnl
      rw [h2] at hnl
      exact absurd hnl (by simp)
    · rename_i nl2 hnl
      rw [h2] at hnl
      injection hnl with hnl
      subst hnl
      rfl
  · rename_i hcp
    rw [h1] at hcp
    exact absurd hcp (by simp)

theorem isPrefixOf_append_self : ∀ (l t : List Char), l.isPrefixOf (l ++ t) = true := by
  intro l
  induction l with
  | nil => intro t; simp [List.isPrefixOf]
  | cons x xs ih => intro t; simp [List.isPrefixOf, ih]

/-- C6 (amended): for an indentation-delimited block whose first body line
is indented by exactly four spaces, every later body line that is blank or
indented by at least four spaces (in particular by exactly four) is still
inside the block, and the block ends at the first later non-blank
newline-terminated line indented by fewer than four spaces: find_block_end
returns precisely the start position of that line.  (A final dedented line
lacking its newline is never examined — see the counterexample.) -/
theorem find_block_end_indent_block (pre tail r0 endLine post : List Char)
    (innerRest : List (List Char))
    (hpre : ':' ∉ pre)
    (htail : '\n' ∉ tail)
    (hr0 : r0 = [] ∨ ∃ c0 cs, r0 = c0 :: cs ∧ (c0 = ' ' || c0 = '\t') = false)
    (hr0n : '\n' ∉ r0)
    (hinner : ∀ l ∈ innerRest, '\n' ∉ l ∧
      (l.all isPySpace = true ∨ (lit "    ").isPrefixOf l = true))
    (hendNl : '\n' ∉ endLine)
    (hendBlank : endLine.all isPySpace = false)
    (hendInd : leadingSpaces endLine < 4) :
    find_block_end (String.mk (pre ++ ':' :: (tail ++ '\n' ::
        (linesJoin ((lit "    " ++ r0) :: innerRest) ++ (endLine ++ '\n' :: post))))) 0 =
      pre.length + 1 + tail.length + 1 +
        (linesJoin ((lit "    " ++ r0) :: innerRest)).length := by
  have h1 : findFrom (pre ++ ':' :: (tail ++ '\n' ::
      (linesJoin ((lit "    " ++ r0) :: innerRest) ++ (endLine ++ '\n' :: post)))) ':' 0 =
      some pre.length := by
    unfold findFrom
    rw [List.drop_zero,
      findFromAux_append pre _ 0 (fun x hx he => hpre (by rw [← he]; exact hx))]
    simp [findFromAux]
  have h2 : findFrom (pre ++ ':' :: (tail ++ '\n' ::
      (linesJoin ((lit "    " ++ r0) :: innerRest) ++ (endLine ++ '\n' :: post)))) '\n'
      pre.length = some (pre.length + 1 + tail.length) := by
    unfold findFrom
    have hd : (pre ++ ':' :: (tail ++ '\n' ::
        (linesJoin ((lit "    " ++ r0) :: innerRest) ++ (endLine ++ '\n' :: post)))).drop
          pre.length =
        ':' :: (tail ++ '\n' ::
          (linesJoin ((lit "    " ++ r0) :: innerRest) ++ (endLine ++ '\n' :: post))) :=
      List.drop_left pre _
    rw [hd]
    have hstep : findFromAux '\n' (':' :: (tail ++ '\n' ::
        (linesJoin ((lit "    " ++ r0) :: innerRest) ++ (endLine ++ '\n' :: post))))
        pre.length =
        findFromAux '\n' (tail ++ '\n' ::
          (linesJoin ((lit "    " ++ r0) :: innerRest) ++ (endLine ++ '\n' :: post)))
          (pre.length + 1) := by
      simp [findFromAux]
    rw [hstep,
      findFromAux_append tail _ _ (fun x hx he => htail (by rw [← he]; exact hx))]
    simp [findFromAux]
  rw [find_block_end_colon _ pre.length (pre.length + 1 + tail.length) h1 h2]
  have htl : (String.mk (pre ++ ':' :: (tail ++ '\n' ::
      (linesJoin ((lit "    " ++ r0) :: innerRest) ++ (endLine ++ '\n' :: post))))).toList =
      pre ++ ':' :: (tail ++ '\n' ::
        (linesJoin ((lit "    " ++ r0) :: innerRest) ++ (endLine ++ '\n' :: post))) := rfl
  rw [htl]
  have hdropB : (pre ++ ':' :: (tail ++ '\n' ::
      (linesJoin ((lit "    " ++ r0) :: innerRest) ++ (endLine ++ '\n' :: post)))).drop
        (pre.length + 1 + tail.length + 1) =
      linesJoin ((lit "    " ++ r0) :: innerRest) ++ (endLine ++ '\n' :: post) := by
    have hsplit : pre ++ ':' :: (tail ++ '\n' ::
        (linesJoin ((lit "    " ++ r0) :: innerRest) ++ (endLine ++ '\n' :: post))) =
        (pre ++ ':' :: (tail ++ ['\n'])) ++
          (linesJoin ((lit "    " ++ r0) :: innerRest) ++ (endLine ++ '\n' :: post)) := by
      simp
    have hlen : (pre ++ ':' :: (tail ++ ['\n'])).length =
        pre.length + 1 + tail.length + 1 := by
      simp only [List.length_append, List.length_cons, List.length_nil]
      omega
    rw [hsplit, ← hlen, List.drop_left]
  rw [hdropB]
  have hBODY : linesJoin ((lit "    " ++ r0) :: innerRest) ++ (endLine ++ '\n' :: post) =
      (lit "    " ++ r0) ++ '\n' ::
        (linesJoin innerRest ++ (endLine ++ '\n' :: post)) := by
    simp [linesJoin]
  have hsp : ∀ l : List Char, List.takeWhile (fun x => x = ' ' || x = '\t') (' ' :: l) =
      ' ' :: List.takeWhile (fun x => x = ' ' || x = '\t') l := fun _ => rfl
  have hnl4 : ∀ l : List Char,
      List.takeWhile (fun x => x = ' ' || x = '\t') ('\n' :: l) = [] := fun _ => rfl
  have hbase : (List.takeWhile (fun x => x = ' ' || x = '\t')
      (linesJoin ((lit "    " ++ r0) :: innerRest) ++ (endLine ++ '\n' :: post))) =
      lit "    " := by
    rw [hBODY]
    rcases hr0 with hre | ⟨c0, cs, hc, hpred⟩
    · subst hre
      rw [show (lit "    " ++ ([] : List Char)) ++ '\n' ::
          (linesJoin innerRest ++ (endLine ++ '\n' :: post)) =
          ' ' :: ' ' :: ' ' :: ' ' :: '\n' ::
            (linesJoin innerRest ++ (endLine ++ '\n' :: post)) from rfl]
      rw [hsp, hsp, hsp, hsp, hnl4]
      rfl
    · subst hc
      rw [show (lit "    " ++ (c0 :: cs)) ++ '\n' ::
          (linesJoin innerRest ++ (endLine ++ '\n' :: post)) =
          ' ' :: ' ' :: ' ' :: ' ' :: c0 ::
            (cs ++ '\n' :: (linesJoin innerRest ++ (endLine ++ '\n' :: post))) from rfl]
      rw [hsp, hsp, hsp, hsp]
      have hstop : List.takeWhile (fun x => x = ' ' || x = '\t')
          (c0 :: (cs ++ '\n' :: (linesJoin innerRest ++ (endLine ++ '\n' :: post)))) =
          [] := by
        rw [List.takeWhile_cons, if_neg]
        simp [hpred]
      rw [hstop]
      rfl
  rw [hbase]
  have hL0nl : '\n' ∉ lit "    " ++ r0 := by
    intro hmem
    rcases List.mem_append.mp hmem with h | h
    · simp [lit] at h
    · exact hr0n h
  have hsplitNl : splitNl (linesJoin ((lit "    " ++ r0) :: innerRest) ++
      (endLine ++ '\n' :: post)) =
      ((lit "    " ++ r0) :: innerRest) ++ (endLine :: splitNl post) := by
    rw [splitNl_linesJoin ((lit "    " ++ r0) :: innerRest) _ ?hnl]
    · rw [splitNl_append_line endLine post hendNl]
    case hnl =>
      intro l hl
      rcases List.mem_cons.mp hl with h | h
      · rw [h]
        exact hL0nl
      · exact (hinner l h).1
  rw [hsplitNl]
  rw [lineLoop_skip _ (lit "    ") ((lit "    " ++ r0) :: innerRest)
    (endLine :: splitNl post) _ (List.cons_ne_nil _ _) ?goods]
  · have hnp : (lit "    ").isPrefixOf endLine = false := by
      by_cases hb : (lit "    ").isPrefixOf endLine = true
      · exact absurd (leadingSpaces_ge_four_of_pad hb) (by omega)
      · exact Bool.eq_false_iff.mpr hb
    obtain ⟨s, ss, hs⟩ := splitNl_cons_exists post
    rw [lineLoop_stop _ _ endLine (splitNl post) _
      (by rw [hs]; exact List.cons_ne_nil _ _) (by simp [hendBlank, hnp])]
  case goods =>
    intro l hl
    rcases List.mem_cons.mp hl with h | h
    · rw [h]
      exact Or.inr (isPrefixOf_append_self (lit "    ") r0)
    · exact (hinner l h).2

/-- Witness for C6 (amended): in the block of def f() the second body line,
indented by exactly four spaces, stays inside; the non-blank line c with
zero indentation ends the block at its start, position 21. -/
theorem find_block_end_indent_block_witness :
    find_block_end (String.mk ((lit "def f()") ++ ':' :: (([] : List Char) ++ '\n' ::
        (linesJoin ((lit "    " ++ lit "a") :: [lit "    b"]) ++
          (lit "c" ++ '\n' :: ([] : List Char)))))) 0 =
      (lit "def f()").length + 1 + ([] : List Char).length + 1 +
        (linesJoin ((lit "    " ++ lit "a") :: [lit "    b"])).length :=
  find_block_end_indent_block (lit "def f()") [] (lit "a") (lit "c") [] [lit "    b"]
    (by decide) (by decide) (Or.inr ⟨'a', [], by decide, by decide⟩) (by decide)
    (by decide) (by decide) (by decide) (by decide)

/-- C6 (counterexample): in the text of def f() whose dedented final line b
lacks a trailing newline, the first later non-blank line indented by fewer
than four spaces starts at position 15, but find_block_end never examines
the unterminated final line and returns the text length 16 instead,
refuting the claim as universally stated. -/
theorem find_block_end_unterminated_last_line :
    find_block_end "def f():\n    a\nb" 0 = 16 ∧
      find_block_end "def f():\n    a\nb" 0 ≠ 15 := by
  refine ⟨by decide, by decide⟩

theorem not_doc_head (a : Char) (rest : List Char) (h : a ≠ 'D') :
    (lit "Documentation").isPrefixOf (a :: rest) = false := by
  rw [show lit "Documentation" = 'D' :: lit "ocumentation" from rfl]
  show (('D' == a) && (lit "ocumentation").isPrefixOf rest) = false
  rw [beq_eq_false_iff_ne.mpr (Ne.symm h), Bool.false_and]

/-- A type whose start position carries no documentation entry renders a
type_info list in which no element is a Documentation line. -/
theorem csTypeInfo_no_doc (docs : List (Nat × List Char)) (T : CsType)
    (hlk : lookupLast docs T.start = none) :
    ∀ s ∈ csTypeInfo docs T, (lit "Documentation").isPrefixOf s = false := by
  intro s hs
  unfold csTypeInfo at hs
  rw [hlk] at hs
  rcases List.mem_append.mp hs with h | h
  · rcases List.mem_append.mp h with h | h
    · rcases List.mem_append.mp h with h | h
      · rw [List.mem_singleton] at h
        subst h
        show (lit "Documentation").isPrefixOf
          ('\n' :: ((titleKind T.kind ++ lit ": ") ++ T.name)) = false
        exact not_doc_head _ _ (by decide)
      · cases hb : T.base with
        | none =>
          rw [hb] at h
          simp at h
        | some b =>
          rw [hb] at h
          rw [List.mem_singleton] at h
          subst h
          show (lit "Documentation").isPrefixOf ('I' :: (lit "nherits/Implements: " ++ pyStrip b)) = false
          exact not_doc_head _ _ (by decide)
    · simp at h
  · split at h
    · simp only [] at h
      split at h
      · simp at h
      · rw [List.mem_singleton] at h
        subst h
        show (lit "Documentation").isPrefixOf
          ('V' :: (lit "alues:\n  " ++ joinWith (lit "\n  ") (csEnumValues T.body))) = false
        exact not_doc_head _ _ (by decide)
    · simp only [] at h
      rcases List.mem_append.mp h with h | h
      · split at h
        · simp at h
        · rw [List.mem_singleton] at h
          subst h
          show (lit "Documentation").isPrefixOf
            ('P' :: (lit "roperties:\n  " ++ joinWith (lit "\n  ") (csProps T.body))) = false
          exact not_doc_head _ _ (by decide)
      · split at h
        · simp at h
        · rw [List.mem_singleton] at h
          subst h
          show (lit "Documentation").isPrefixOf
            ('M' :: (lit "ethods:\n  " ++ joinWith (lit "\n  ") (csMeths T.body))) = false
          exact not_doc_head _ _ (by decide)

/-- C7: when the text contains exactly one recognized documentation block —
so the xml_docs dictionary holds the single entry (k, d), where k is by
construction the position of the nearest following declaration — and the
type matches are exactly two separate declarations T1 at k and T2 elsewhere,
the documentation line is attached to T1 only: T1's rendered type_info
contains the Documentation line, and no element of T2's rendered type_info
is a Documentation line. -/
theorem cs_doc_attaches_to_first_decl_only (text : String) (k : Nat) (d : List Char)
    (T1 T2 : CsType)
    (_htypes : csTypeMatches text.toList = [T1, T2])
    (hdocs : csDocMatches text.toList = [(k, d)])
    (hT1 : T1.start = k) (hT2 : T2.start ≠ k) :
    (lit "Documentation: " ++ d) ∈ csTypeInfo (csDocMatches text.toList) T1 ∧
      ∀ s ∈ csTypeInfo (csDocMatches text.toList) T2,
        (lit "Documentation").isPrefixOf s = false := by
  constructor
  · have hlk : lookupLast (csDocMatches text.toList) T1.start = some d := by
      rw [hdocs, hT1]
      show (if k = k then some d else none) = some d
      rw [if_pos rfl]
    unfold csTypeInfo
    rw [hlk]
    apply List.mem_append.mpr
    left
    apply List.mem_append.mpr
    right
    simp
  · have hlk : lookupLast (csDocMatches text.toList) T2.start = none := by
      rw [hdocs]
      show (if k = T2.start then some d else none) = none
      rw [if_neg (fun he => hT2 he.symm)]
    exact csTypeInfo_no_doc _ _ hlk

/-- Witness for C7 on a concrete file: one summary block and two class
declarations Alpha and Beta; the Banner documentation is attached to Alpha
at position 40 and Beta at position 62 renders without it. -/
theorem cs_doc_attaches_to_first_decl_only_witness :
    (csDocMatches (String.toList
        "/// <summary>\n/// Banner\n/// </summary>\npublic class Alpha \x7b\x7d\npublic class Beta \x7b\x7d\n") =
      [(40, lit "Banner")] ∧
      csTypeMatches (String.toList
        "/// <summary>\n/// Banner\n/// </summary>\npublic class Alpha \x7b\x7d\npublic class Beta \x7b\x7d\n") =
      [⟨40, lit "class", lit "Alpha", none, []⟩, ⟨62, lit "class", lit "Beta", none, []⟩]) ∧
      ((lit "Documentation: " ++ lit "Banner") ∈
        csTypeInfo (csDocMatches (String.toList
          "/// <summary>\n/// Banner\n/// </summary>\npublic class Alpha \x7b\x7d\npublic class Beta \x7b\x7d\n"))
          ⟨40, lit "class", lit "Alpha", none, []⟩ ∧
        ∀ s ∈ csTypeInfo (csDocMatches (String.toList
          "/// <summary>\n/// Banner\n/// </summary>\npublic class Alpha \x7b\x7d\npublic class Beta \x7b\x7d\n"))
          ⟨62, lit "class", lit "Beta", none, []⟩,
          (lit "Documentation").isPrefixOf s = false) :=
  ⟨⟨by decide, by decide⟩,
    cs_doc_attaches_to_first_decl_only
      "/// <summary>\n/// Banner\n/// </summary>\npublic class Alpha \x7b\x7d\npublic class Beta \x7b\x7d\n"
      40 (lit "Banner") ⟨40, lit "class", lit "Alpha", none, []⟩
      ⟨62, lit "class", lit "Beta", none, []⟩
      (by decide) (by decide) (by decide) (by decide)⟩

/-- Witness for C3 at a concrete input. -/
theorem extract_code_context_total_witness :
    extract_code_context "a.py" "import os" = noContextSentinel ∨
      (sections "a.py" "import os" ≠ [] ∧
        extract_code_context "a.py" "import os" =
          String.mk (joinWith (lit "\n") (sections "a.py" "import os")) ∧
        ∀ s ∈ sections "a.py" "import os", s ≠ []) :=
  extract_code_context_total "a.py" "import os"
